import Mathlib

/-
Formal model of `get_size_and_count_of_objects.py`.

The script has two computational cores:

* `calculate_size` (lines 19-30): a while-loop that repeatedly divides a byte
  count by 1024 (Python true division, producing IEEE binary64 floats) and
  renders `str(round(size, 2)) + ' ' + _size_table[count]`.

* the aggregation loop in `__main__` (lines 173-194): it folds the pages of a
  paginated `list_object_versions` response into six running totals.

Python numbers are modelled by `PyNum`: an `int` is an unbounded natural
number (sizes are non-negative), a `float` is represented by its exact
rational value.  Division of a positive value by 1024 in binary64 is exact
except for the initial int-to-float conversion, so the model carries exact
rationals and applies `rnd`, the round-to-nearest-even projection onto 53
significant bits, at every division — precisely what the hardware does for
the values reached by this loop (all of them lie far above the subnormal
range; binary64 overflow, which Python would surface as an OverflowError
for inputs beyond about 2^1034, is outside the model).
-/

namespace S3Script

/-- Python numeric value flowing through `calculate_size`: the `size`
variable starts as an `int` and becomes a `float` after the first
division. -/
inductive PyNum where
  | int : ℕ → PyNum
  | float : ℚ → PyNum

/-- Round a rational to an integer, ties to even (the IEEE default rounding
used both by binary64 arithmetic and by Python's `round`). -/
def rne (q : ℚ) : ℤ :=
  if q - ⌊q⌋ < 1/2 then ⌊q⌋
  else if 1/2 < q - ⌊q⌋ then ⌊q⌋ + 1
  else if ⌊q⌋ % 2 = 0 then ⌊q⌋ else ⌊q⌋ + 1

/-- Exact value of the IEEE binary64 double nearest to `q` (ties to even),
for `1 ≤ q`: the significand is normalised to `[2^52, 2^53)` and rounded.
Values below 1 are returned unchanged; the loop in `calculate_size` only
ever converts values that are ≥ 1024, so that branch models nothing and is
never reached from the loop. -/
def rnd (q : ℚ) : ℚ :=
  if 1 ≤ q then
    ((rne (q * 2 ^ 52 / 2 ^ Nat.log 2 ⌊q⌋.toNat) : ℚ) * 2 ^ Nat.log 2 ⌊q⌋.toNat) / 2 ^ 52
  else q

/-- Python `size // 1024 > 0`: floor division on an `int` stays an `int`,
floor division on a `float` takes the floor of the exact quotient (the
conversion of that floor back to a float cannot change whether it is
positive, so comparing the exact floor with 0 is faithful). -/
def pyGuard : PyNum → Bool
  | .int n => decide (0 < n / 1024)
  | .float q => decide (0 < ⌊q / 1024⌋)

/-- Python `size = size / 1024` (true division): an `int` is divided exactly
and the quotient is rounded to binary64; a `float` quotient is likewise
rounded (the rounding is the identity whenever the argument is an exactly
representable value ≥ 1, because dividing by 2^10 only shifts the
exponent). -/
def div1024 : PyNum → PyNum
  | .int n => .float (rnd ((n : ℚ) / 1024))
  | .float q => .float (rnd (q / 1024))

/-- Termination measure for the loop: the integer part of the running
value. -/
def pyMeasure : PyNum → ℕ
  | .int n => n
  | .float q => ⌊q⌋.toNat

theorem rne_intCast (n : ℤ) : rne (n : ℚ) = n := by
  unfold rne
  rw [Int.floor_intCast]
  norm_num

theorem floor_le_rne (q : ℚ) : ⌊q⌋ ≤ rne q := by
  unfold rne
  split
  · exact le_refl _
  · split
    · omega
    · split <;> omega

theorem rne_le_floor_add_one (q : ℚ) : rne q ≤ ⌊q⌋ + 1 := by
  unfold rne
  split
  · omega
  · split
    · omega
    · split <;> omega

/-- For `1 ≤ q`, the exponent `e = Nat.log 2 ⌊q⌋` satisfies
`2^e ≤ q < 2^(e+1)`. -/
theorem exp_bounds (q : ℚ) (h : 1 ≤ q) :
    (2 : ℚ) ^ Nat.log 2 ⌊q⌋.toNat ≤ q ∧ q < 2 ^ (Nat.log 2 ⌊q⌋.toNat + 1) := by
  have h0 : 1 ≤ ⌊q⌋ := Int.le_floor.mpr (by exact_mod_cast h)
  have hfl : ⌊q⌋.toNat ≠ 0 := by omega
  have h1 : 2 ^ Nat.log 2 ⌊q⌋.toNat ≤ ⌊q⌋.toNat := Nat.pow_log_le_self 2 hfl
  have h2 : ⌊q⌋.toNat < 2 ^ (Nat.log 2 ⌊q⌋.toNat + 1) :=
    Nat.lt_pow_succ_log_self (by norm_num) _
  have hcast : ((⌊q⌋.toNat : ℤ) : ℚ) = (⌊q⌋ : ℚ) := by
    rw [Int.toNat_of_nonneg (by omega)]
  constructor
  · calc (2 : ℚ) ^ Nat.log 2 ⌊q⌋.toNat ≤ (⌊q⌋.toNat : ℚ) := by exact_mod_cast h1
    _ = (⌊q⌋ : ℚ) := by exact_mod_cast hcast
    _ ≤ q := Int.floor_le q
  · calc q < ⌊q⌋ + 1 := Int.lt_floor_add_one q
    _ = (⌊q⌋.toNat : ℚ) + 1 := by rw [← hcast]; push_cast; ring
    _ ≤ 2 ^ (Nat.log 2 ⌊q⌋.toNat + 1) := by
        have : (⌊q⌋.toNat : ℕ) + 1 ≤ 2 ^ (Nat.log 2 ⌊q⌋.toNat + 1) := h2
        exact_mod_cast this

/-- Rounding at most doubles a value ≥ 1 (a very crude bound, enough for
termination). -/
theorem rnd_le_two_mul (q : ℚ) (h : 1 ≤ q) : rnd q ≤ 2 * q := by
  unfold rnd
  rw [if_pos h]
  obtain ⟨hlow, hhigh⟩ := exp_bounds q h
  set e := Nat.log 2 ⌊q⌋.toNat with he
  have hm : q * 2 ^ 52 / 2 ^ e < 2 ^ 53 := by
    rw [div_lt_iff₀ (by positivity)]
    calc q * 2 ^ 52 < 2 ^ (e + 1) * 2 ^ 52 := by
          exact mul_lt_mul_of_pos_right hhigh (by positivity)
    _ = 2 ^ 53 * 2 ^ e := by ring
  have hr : (rne (q * 2 ^ 52 / 2 ^ e) : ℚ) ≤ 2 ^ 53 := by
    have h1 := rne_le_floor_add_one (q * 2 ^ 52 / 2 ^ e)
    have h2 : ⌊q * 2 ^ 52 / 2 ^ e⌋ < 2 ^ 53 := Int.floor_lt.mpr (by exact_mod_cast hm)
    have : rne (q * 2 ^ 52 / 2 ^ e) ≤ 2 ^ 53 := by omega
    exact_mod_cast this
  calc (rne (q * 2 ^ 52 / 2 ^ e) : ℚ) * 2 ^ e / 2 ^ 52
      ≤ 2 ^ 53 * 2 ^ e / 2 ^ 52 := by gcongr
  _ = 2 * 2 ^ e := by ring
  _ ≤ 2 * q := by linarith

/-- Rounding never drops below a power of two that bounds the value from
below. -/
theorem le_rnd_pow (k : ℕ) (q : ℚ) (h : (2 : ℚ) ^ k ≤ q) : (2 : ℚ) ^ k ≤ rnd q := by
  have h1 : (1 : ℚ) ≤ q := le_trans (one_le_pow₀ (by norm_num)) h
  unfold rnd
  rw [if_pos h1]
  obtain ⟨hlow, hhigh⟩ := exp_bounds q h1
  set e := Nat.log 2 ⌊q⌋.toNat with he
  have hfk : (2 ^ k : ℤ) ≤ ⌊q⌋ := Int.le_floor.mpr (by exact_mod_cast h)
  have h0 : (0 : ℤ) ≤ ⌊q⌋ := le_trans (by positivity) hfk
  have hself : 2 ^ k ≤ ⌊q⌋.toNat := by
    zify
    rw [Int.toNat_of_nonneg h0]
    exact_mod_cast hfk
  have hpos : 0 < 2 ^ k := pow_pos (by norm_num) k
  have hek : k ≤ e := (Nat.pow_le_iff_le_log (by norm_num) (by omega)).mp hself
  have hm_low : (2 ^ 52 : ℚ) ≤ q * 2 ^ 52 / 2 ^ e := by
    rw [le_div_iff₀ (by positivity)]
    calc (2 ^ 52 : ℚ) * 2 ^ e = 2 ^ e * 2 ^ 52 := by ring
    _ ≤ q * 2 ^ 52 := by gcongr
  have hfloor : (2 ^ 52 : ℤ) ≤ ⌊q * 2 ^ 52 / 2 ^ e⌋ := Int.le_floor.mpr (by exact_mod_cast hm_low)
  have hrne : (2 ^ 52 : ℚ) ≤ (rne (q * 2 ^ 52 / 2 ^ e) : ℚ) := by
    have := floor_le_rne (q * 2 ^ 52 / 2 ^ e)
    have : (2 ^ 52 : ℤ) ≤ rne (q * 2 ^ 52 / 2 ^ e) := by omega
    exact_mod_cast this
  calc (2 : ℚ) ^ k ≤ 2 ^ e := pow_le_pow_right₀ (by norm_num) hek
  _ = 2 ^ 52 * 2 ^ e / 2 ^ 52 := by ring
  _ ≤ (rne (q * 2 ^ 52 / 2 ^ e) : ℚ) * 2 ^ e / 2 ^ 52 := by gcongr

/-- Dyadic rationals whose odd part fits in 53 bits are fixed points of the
rounding: this is exactly the reason the divisions after the first one are
exact in `calculate_size`. -/
theorem rnd_exact (a i j : ℕ) (ha : a < 2 ^ 53) (h1 : (1 : ℚ) ≤ (a : ℚ) * 2 ^ i / 2 ^ j) :
    rnd ((a : ℚ) * 2 ^ i / 2 ^ j) = (a : ℚ) * 2 ^ i / 2 ^ j := by
  set q : ℚ := (a : ℚ) * 2 ^ i / 2 ^ j with hq
  unfold rnd
  rw [if_pos h1]
  obtain ⟨hlow, hhigh⟩ := exp_bounds q h1
  set e := Nat.log 2 ⌊q⌋.toNat with he
  have key1 : 2 ^ (e + j) ≤ a * 2 ^ i := by
    have : (2 : ℚ) ^ e * 2 ^ j ≤ (a : ℚ) * 2 ^ i := by
      have := mul_le_mul_of_nonneg_right hlow (show (0:ℚ) ≤ 2 ^ j by positivity)
      calc (2:ℚ) ^ e * 2 ^ j ≤ q * 2 ^ j := this
      _ = (a : ℚ) * 2 ^ i := by
          rw [hq, div_mul_cancel₀]
          positivity
    have h' : ((2 ^ (e + j) : ℕ) : ℚ) ≤ ((a * 2 ^ i : ℕ) : ℚ) := by
      push_cast
      rw [pow_add]
      exact this
    exact_mod_cast h'
  have key2 : a * 2 ^ i < 2 ^ (53 + i) := by
    rw [pow_add]
    exact (Nat.mul_lt_mul_right (pow_pos (by norm_num) i)).mpr ha
  have hej : e + j ≤ 52 + i := by
    have : 2 ^ (e + j) < 2 ^ (53 + i) := lt_of_le_of_lt key1 key2
    have := (Nat.pow_lt_pow_iff_right (by norm_num : 1 < 2)).mp this
    omega
  set d : ℕ := 52 + i - (e + j) with hd
  have hdej : d + (e + j) = 52 + i := by omega
  have hm_eq : q * 2 ^ 52 / 2 ^ e = ((a * 2 ^ d : ℕ) : ℚ) := by
    rw [hq, div_mul_eq_mul_div, div_div, div_eq_iff (by positivity)]
    push_cast
    calc (a : ℚ) * 2 ^ i * 2 ^ 52 = (a : ℚ) * 2 ^ (i + 52) := by rw [pow_add]; ring
    _ = (a : ℚ) * 2 ^ (d + (j + e)) := by
        have : i + 52 = d + (j + e) := by omega
        rw [this]
    _ = (a : ℚ) * 2 ^ d * (2 ^ j * 2 ^ e) := by rw [pow_add, pow_add]; ring
  rw [hm_eq]
  have : rne ((a * 2 ^ d : ℕ) : ℚ) = ((a * 2 ^ d : ℕ) : ℤ) := by
    have := rne_intCast ((a * 2 ^ d : ℕ) : ℤ)
    rwa [Int.cast_natCast] at this
  rw [this, hq]
  rw [div_eq_div_iff (by positivity) (by positivity)]
  push_cast
  calc (a : ℚ) * 2 ^ d * 2 ^ e * 2 ^ j = (a : ℚ) * 2 ^ (d + e + j) := by
        rw [pow_add, pow_add]; ring
  _ = (a : ℚ) * 2 ^ (i + 52) := by
      have hde : d + e + j = i + 52 := by omega
      rw [hde]
  _ = (a : ℚ) * 2 ^ i * 2 ^ 52 := by rw [pow_add]; ring

theorem pyGuard_int (n : ℕ) : pyGuard (.int n) = true ↔ 1024 ≤ n := by
  simp only [pyGuard, decide_eq_true_eq]
  omega

theorem pyGuard_float (q : ℚ) : pyGuard (.float q) = true ↔ (1024 : ℚ) ≤ q := by
  simp only [pyGuard, decide_eq_true_eq]
  rw [Int.lt_iff_add_one_le, zero_add, Int.le_floor]
  rw [le_div_iff₀ (by norm_num)]
  norm_num

/-- One loop iteration strictly shrinks the integer part of the running
value (each division by 1024 at least halves it, even after rounding). -/
theorem pyMeasure_lt (s : PyNum) (h : pyGuard s = true) :
    pyMeasure (div1024 s) < pyMeasure s := by
  cases s with
  | int n =>
    rw [pyGuard_int] at h
    show ⌊rnd ((n : ℚ) / 1024)⌋.toNat < n
    have h1 : (1 : ℚ) ≤ (n : ℚ) / 1024 := by
      rw [le_div_iff₀ (by norm_num)]
      exact_mod_cast by omega
    have h2 : rnd ((n : ℚ) / 1024) ≤ 2 * ((n : ℚ) / 1024) := rnd_le_two_mul _ h1
    have h3 : (⌊rnd ((n : ℚ) / 1024)⌋ : ℚ) ≤ (n : ℚ) / 512 := by
      calc (⌊rnd ((n : ℚ) / 1024)⌋ : ℚ) ≤ rnd ((n : ℚ) / 1024) := Int.floor_le _
      _ ≤ 2 * ((n : ℚ) / 1024) := h2
      _ = (n : ℚ) / 512 := by ring
    have h4 : (⌊rnd ((n : ℚ) / 1024)⌋ : ℚ) < (n : ℚ) := by
      calc (⌊rnd ((n : ℚ) / 1024)⌋ : ℚ) ≤ (n : ℚ) / 512 := h3
      _ < (n : ℚ) := by
          rw [div_lt_iff₀ (by norm_num)]
          have : (1024 : ℚ) ≤ (n : ℚ) := by exact_mod_cast h
          nlinarith
    have h5 : ⌊rnd ((n : ℚ) / 1024)⌋ < (n : ℤ) := by exact_mod_cast h4
    omega
  | float q =>
    rw [pyGuard_float] at h
    show ⌊rnd (q / 1024)⌋.toNat < ⌊q⌋.toNat
    have hfq : (1024 : ℤ) ≤ ⌊q⌋ := Int.le_floor.mpr (by exact_mod_cast h)
    have h1 : (1 : ℚ) ≤ q / 1024 := by
      rw [le_div_iff₀ (by norm_num)]
      linarith
    have h2 : rnd (q / 1024) ≤ 2 * (q / 1024) := rnd_le_two_mul _ h1
    have h3 : (⌊rnd (q / 1024)⌋ : ℚ) < (⌊q⌋ : ℚ) := by
      calc (⌊rnd (q / 1024)⌋ : ℚ) ≤ rnd (q / 1024) := Int.floor_le _
      _ ≤ 2 * (q / 1024) := h2
      _ = q / 512 := by ring
      _ < (⌊q⌋ : ℚ) := by
          have hup : q < (⌊q⌋ : ℚ) + 1 := Int.lt_floor_add_one q
          have hlo : (1024 : ℚ) ≤ (⌊q⌋ : ℚ) := by exact_mod_cast hfq
          rw [div_lt_iff₀ (by norm_num)]
          nlinarith
    have h5 : ⌊rnd (q / 1024)⌋ < ⌊q⌋ := by exact_mod_cast h3
    omega

/-- The while-loop of `calculate_size` (lines 26-29):
`while size // 1024 > 0: size = size / 1024; count += 1`. -/
def sizeLoop (s : PyNum) (count : ℕ) : PyNum × ℕ :=
  if h : pyGuard s = true then sizeLoop (div1024 s) (count + 1) else (s, count)
termination_by pyMeasure s
decreasing_by exact pyMeasure_lt s h

theorem sizeLoop_exit (s : PyNum) (c : ℕ) (h : pyGuard s = false) : sizeLoop s c = (s, c) := by
  rw [sizeLoop]
  simp [h]

theorem sizeLoop_step (s : PyNum) (c : ℕ) (h : pyGuard s = true) :
    sizeLoop s c = sizeLoop (div1024 s) (c + 1) := by
  rw [sizeLoop]
  simp [h]

/-- Fuel-indexed version of the same loop, used to state termination: it
performs at most `fuel` iterations and reports `none` if the guard was
still true when the fuel ran out. -/
def sizeLoopFuel : ℕ → PyNum → ℕ → Option (PyNum × ℕ)
  | 0, _, _ => none
  | fuel + 1, s, c =>
    if pyGuard s = true then sizeLoopFuel fuel (div1024 s) (c + 1) else some (s, c)

/-- Some finite amount of fuel always suffices, and the fuelled loop then
agrees with the recursive one. -/
theorem sizeLoopFuel_terminates (s : PyNum) (c : ℕ) :
    ∃ fuel, sizeLoopFuel fuel s c = some (sizeLoop s c) := by
  have main : ∀ m : ℕ, ∀ s c, pyMeasure s < m → ∃ fuel, sizeLoopFuel fuel s c = some (sizeLoop s c) := by
    intro m
    induction m with
    | zero => intro s c h; omega
    | succ m ih =>
      intro s c hm
      by_cases h : pyGuard s = true
      · obtain ⟨fuel, hfuel⟩ := ih (div1024 s) (c + 1) (by
          have := pyMeasure_lt s h
          omega)
        refine ⟨fuel + 1, ?_⟩
        rw [sizeLoopFuel, if_pos h, hfuel, sizeLoop_step s c h]
      · refine ⟨1, ?_⟩
        rw [sizeLoopFuel, if_neg h, sizeLoop_exit s c (by simpa using h)]
  exact main (pyMeasure s + 1) s c (by omega)

/-- The final count is never below the running count. -/
theorem sizeLoop_count_le (s : PyNum) (c : ℕ) : c ≤ (sizeLoop s c).2 := by
  have main : ∀ m : ℕ, ∀ s c, pyMeasure s < m → c ≤ (sizeLoop s c).2 := by
    intro m
    induction m with
    | zero => intro s c h; omega
    | succ m ih =>
      intro s c hm
      by_cases h : pyGuard s = true
      · rw [sizeLoop_step s c h]
        have := ih (div1024 s) (c + 1) (by
          have := pyMeasure_lt s h
          omega)
        omega
      · rw [sizeLoop_exit s c (by simpa using h)]
  exact main (pyMeasure s + 1) s c (by omega)

/-- SI unit symbol table built in `__main__` (line 144):
`{0: 'Bs', 1: 'KBs', 2: 'MBs', 3: 'GBs', 4: 'TBs', 5: 'PBs', 6: 'EBs'}`.
A lookup with a key outside `0..6` raises `KeyError` in Python, modelled by
`none`. -/
def size_table : ℕ → Option String
  | 0 => some "Bs"
  | 1 => some "KBs"
  | 2 => some "MBs"
  | 3 => some "GBs"
  | 4 => some "TBs"
  | 5 => some "PBs"
  | 6 => some "EBs"
  | _ => none

theorem size_table_none (c : ℕ) (h : 7 ≤ c) : size_table c = none := by
  match c, h with
  | n + 7, _ => rfl

/-- Python `str(round(size, 2))`.

On an `int`, `round(n, 2)` is the same `int` and `str` prints its decimal
digits.  On a `float` with exact value `q`, `round(q, 2)` produces the
double nearest to `k/100` where `k` is the half-to-even rounding of the
exact value `q * 100` (CPython rounds on the decimal expansion of the
double; ties cannot occur because no binary fraction has an exact decimal
part of the form `.xx5`).  `repr` of that double is its shortest
round-tripping decimal, which on the hundredths grid reached here (the
loop's final values lie in `[1, 1024)`, possibly rounded up to exactly
1024, so `k < 2^53` and neighbouring candidates are at least `0.01 - ulp`
apart) is exactly `k/100` written with trailing fractional zeros dropped
but at least one fractional digit kept. -/
def str_round2 : PyNum → String
  | .int n => toString n
  | .float q =>
    let k : ℤ := rne (q * 100)
    if k % 100 = 0 then toString (k / 100) ++ ".0"
    else if k % 10 = 0 then toString (k / 100) ++ "." ++ toString (k % 100 / 10)
    else if k % 100 < 10 then toString (k / 100) ++ ".0" ++ toString (k % 100)
    else toString (k / 100) ++ "." ++ toString (k % 100)

/-- The function `calculate_size(size, _size_table)` (lines 19-30), with
`_size_table` fixed to the table the script always passes.  Returns `none`
when the table lookup raises `KeyError`. -/
def calculate_size (size : ℕ) : Option String :=
  let r := sizeLoop (.int size) 0
  (size_table r.2).map (fun unit => str_round2 r.1 ++ " " ++ unit)

/-- Exact execution of the float phase of the loop: as long as the running
value is a dyadic rational `a * 2^i / 2^j` whose odd part `a` fits in 53
bits, every further division by 1024 is exact, and the loop adds
`Nat.log 1024 m` to the count where `m = ⌊a * 2^i / 2^j⌋`. -/
theorem sizeLoop_exact (a : ℕ) (ha : a < 2 ^ 53) :
    ∀ m i j c : ℕ, a * 2 ^ i / 2 ^ j = m → 2 ^ j ≤ a * 2 ^ i →
      sizeLoop (.float ((a : ℚ) * 2 ^ i / 2 ^ j)) c
        = (.float ((a : ℚ) * 2 ^ i / 2 ^ (j + 10 * Nat.log 1024 m)), c + Nat.log 1024 m) := by
  intro m
  induction m using Nat.strong_induction_on with
  | _ m ih =>
    intro i j c hm h1
    by_cases hc : 1024 ≤ m
    · -- the guard holds and one more (exact) division is performed
      have hA : 2 ^ (j + 10) ≤ a * 2 ^ i := by
        have h2j : 0 < 2 ^ j := pow_pos (by norm_num) j
        have := (Nat.le_div_iff_mul_le h2j).mp (hm ▸ hc)
        calc 2 ^ (j + 10) = 2 ^ j * 2 ^ 10 := by rw [pow_add]
        _ = 1024 * 2 ^ j := by ring
        _ ≤ a * 2 ^ i := this
      have hguard : pyGuard (.float ((a : ℚ) * 2 ^ i / 2 ^ j)) = true := by
        rw [pyGuard_float, le_div_iff₀ (by positivity)]
        have hcast : ((2 ^ (j + 10) : ℕ) : ℚ) ≤ ((a * 2 ^ i : ℕ) : ℚ) := by exact_mod_cast hA
        push_cast at hcast
        calc (1024 : ℚ) * 2 ^ j = 2 ^ 10 * 2 ^ j := by norm_num
        _ = 2 ^ (j + 10) := by rw [pow_add]; ring
        _ ≤ (a : ℚ) * 2 ^ i := hcast
      rw [sizeLoop_step _ _ hguard]
      have h1' : (1 : ℚ) ≤ (a : ℚ) * 2 ^ i / 2 ^ (j + 10) := by
        rw [le_div_iff₀ (by positivity), one_mul]
        have hcast : ((2 ^ (j + 10) : ℕ) : ℚ) ≤ ((a * 2 ^ i : ℕ) : ℚ) := by exact_mod_cast hA
        push_cast at hcast
        exact hcast
      have hdiv_eq : div1024 (.float ((a : ℚ) * 2 ^ i / 2 ^ j))
          = .float ((a : ℚ) * 2 ^ i / 2 ^ (j + 10)) := by
        show PyNum.float (rnd ((a : ℚ) * 2 ^ i / 2 ^ j / 1024)) = _
        rw [div_div]
        have h2 : (2 : ℚ) ^ j * 1024 = 2 ^ (j + 10) := by rw [pow_add]; norm_num
        rw [h2, rnd_exact a i (j + 10) ha h1']
      rw [hdiv_eq]
      have hm' : a * 2 ^ i / 2 ^ (j + 10) = m / 1024 := by
        rw [← hm, pow_add]
        rw [Nat.div_div_eq_div_mul]
        norm_num
      have hlt : m / 1024 < m := Nat.div_lt_self (by omega) (by norm_num)
      rw [ih (m / 1024) hlt i (j + 10) (c + 1) hm' hA]
      have hlog : Nat.log 1024 m = Nat.log 1024 (m / 1024) + 1 := by
        have hpos := Nat.log_pos (by norm_num : 1 < 1024) hc
        have hdb := Nat.log_div_base 1024 m
        omega
      have e1 : j + 10 + 10 * Nat.log 1024 (m / 1024) = j + 10 * Nat.log 1024 m := by omega
      have e2 : c + 1 + Nat.log 1024 (m / 1024) = c + Nat.log 1024 m := by omega
      rw [e1, e2]
    · -- the guard fails immediately
      have h2j : 0 < 2 ^ j := pow_pos (by norm_num) j
      have hlt : a * 2 ^ i < 1024 * 2 ^ j :=
        (Nat.div_lt_iff_lt_mul h2j).mp (by omega)
      have hq_lt : (a : ℚ) * 2 ^ i / 2 ^ j < 1024 := by
        rw [div_lt_iff₀ (by positivity)]
        have hcast : ((a * 2 ^ i : ℕ) : ℚ) < ((1024 * 2 ^ j : ℕ) : ℚ) := by exact_mod_cast hlt
        push_cast at hcast
        linarith
      have hg : pyGuard (.float ((a : ℚ) * 2 ^ i / 2 ^ j)) = false := by
        cases hb : pyGuard (.float ((a : ℚ) * 2 ^ i / 2 ^ j)) with
        | false => rfl
        | true => exact absurd ((pyGuard_float _).mp hb) (not_le.mpr hq_lt)
      rw [sizeLoop_exit _ _ hg]
      have hlog : Nat.log 1024 m = 0 := Nat.log_of_lt (by omega)
      rw [hlog]
      simp

theorem sizeLoop_int_small (n : ℕ) (hn : n < 1024) : sizeLoop (.int n) 0 = (.int n, 0) := by
  apply sizeLoop_exit
  cases hb : pyGuard (.int n) with
  | false => rfl
  | true => exact absurd ((pyGuard_int n).mp hb) (by omega)

/-- Full execution of the loop on an `int` below 2^53: the int-to-float
conversion of the first division is exact, so the loop computes exactly
`count = ⌊log₁₀₂₄ n⌋` divisions and the final value is `n / 1024^count`. -/
theorem sizeLoop_int_exact (n : ℕ) (hn : n < 2 ^ 53) (h1024 : 1024 ≤ n) :
    sizeLoop (.int n) 0
      = (.float ((n : ℚ) / 2 ^ (10 * Nat.log 1024 n)), Nat.log 1024 n) := by
  have hguard : pyGuard (.int n) = true := (pyGuard_int n).mpr h1024
  rw [sizeLoop_step _ _ hguard]
  show sizeLoop (.float (rnd ((n : ℚ) / 1024))) 1 = _
  have hshape : (n : ℚ) / 1024 = (n : ℚ) * 2 ^ 0 / 2 ^ 10 := by norm_num
  have h1' : (1 : ℚ) ≤ (n : ℚ) * 2 ^ 0 / 2 ^ 10 := by
    rw [le_div_iff₀ (by positivity), one_mul]
    have : ((2 ^ 10 : ℕ) : ℚ) ≤ ((n * 2 ^ 0 : ℕ) : ℚ) := by
      exact_mod_cast (by omega : 2 ^ 10 ≤ n * 2 ^ 0)
    push_cast at this
    linarith
  rw [hshape, rnd_exact n 0 10 hn h1']
  have hm : n * 2 ^ 0 / 2 ^ 10 = n / 1024 := by norm_num
  have hj : 2 ^ 10 ≤ n * 2 ^ 0 := by omega
  rw [sizeLoop_exact n hn (n / 1024) 0 10 1 hm hj]
  have hlog : Nat.log 1024 n = Nat.log 1024 (n / 1024) + 1 := by
    have hpos := Nat.log_pos (by norm_num : 1 < 1024) h1024
    have hdb := Nat.log_div_base 1024 n
    omega
  have e1 : 10 + 10 * Nat.log 1024 (n / 1024) = 10 * Nat.log 1024 n := by omega
  have e2 : 1 + Nat.log 1024 (n / 1024) = Nat.log 1024 n := by omega
  rw [e1, e2]
  norm_num

/-! ## The aggregation loop of `__main__` (lines 173-194)

Records are modelled with the attribute names the script reads.  The value
of `version['IsLatest']` is tri-state: the loop tests `is False` and then
`is True`, so any other value (e.g. `None` from a malformed listing) falls
through both branches.  A `ListingPage` carries its two record lists as
`Option`s, modelling the `'DeleteMarkers' in page` / `'Versions' in page`
membership tests. -/

/-- Value found under the `IsLatest` key of a version record: Python
`True`, Python `False`, or anything else (absent/null/non-boolean). -/
inductive IsLatestVal where
  | pyTrue : IsLatestVal
  | pyFalse : IsLatestVal
  | malformed : IsLatestVal
deriving DecidableEq

/-- One entry of `object_response_itr['Versions']`. -/
structure VersionRecord where
  IsLatest : IsLatestVal
  Size : ℕ
deriving DecidableEq

/-- One entry of `object_response_itr['DeleteMarkers']`; the loop reads no
attribute of it. -/
structure DeleteMarkerRecord where
deriving DecidableEq

/-- One page of the paginated `list_object_versions` response. -/
structure ListingPage where
  DeleteMarkers : Option (List DeleteMarkerRecord)
  Versions : Option (List VersionRecord)
deriving DecidableEq

/-- The six accumulator variables initialised at lines 174-179. -/
@[ext]
structure Totals where
  delete_marker_count : ℕ
  delete_marker_size : ℕ
  versioned_object_count : ℕ
  versioned_object_size : ℕ
  current_object_count : ℕ
  current_object_size : ℕ
deriving DecidableEq

def initialTotals : Totals := ⟨0, 0, 0, 0, 0, 0⟩

/-- Body of `for delete_marker in object_response_itr['DeleteMarkers']`
(lines 184-185). -/
def processDeleteMarker (t : Totals) (_dm : DeleteMarkerRecord) : Totals :=
  { t with delete_marker_count := t.delete_marker_count + 1 }

/-- Body of `for version in object_response_itr['Versions']` (lines
188-194).  There is no `else` branch in the source: a record whose
`IsLatest` is neither `False` nor `True` leaves the totals unchanged. -/
def processVersion (t : Totals) (v : VersionRecord) : Totals :=
  match v.IsLatest with
  | .pyFalse =>
    { t with versioned_object_count := t.versioned_object_count + 1,
             versioned_object_size := t.versioned_object_size + v.Size }
  | .pyTrue =>
    { t with current_object_count := t.current_object_count + 1,
             current_object_size := t.current_object_size + v.Size }
  | .malformed => t

/-- One iteration of `for object_response_itr in ...paginate(...)` (lines
182-194). -/
def processPage (t : Totals) (page : ListingPage) : Totals :=
  let t1 := match page.DeleteMarkers with
    | some dms => dms.foldl processDeleteMarker t
    | none => t
  match page.Versions with
  | some vs => vs.foldl processVersion t1
  | none => t1

/-- The whole aggregation pass over a finite page sequence. -/
def aggregate (pages : List ListingPage) : Totals :=
  pages.foldl processPage initialTotals

def pageDeleteMarkers (p : ListingPage) : List DeleteMarkerRecord := p.DeleteMarkers.getD []

def pageVersions (p : ListingPage) : List VersionRecord := p.Versions.getD []

/-- All delete-marker records of a page sequence, in visit order. -/
def allDeleteMarkers (pages : List ListingPage) : List DeleteMarkerRecord :=
  (pages.map pageDeleteMarkers).flatten

/-- All version records of a page sequence, in visit order. -/
def allVersions (pages : List ListingPage) : List VersionRecord :=
  (pages.map pageVersions).flatten

/-- The record is counted as a current object: `IsLatest is True`. -/
def isCurrent (v : VersionRecord) : Bool :=
  match v.IsLatest with
  | .pyTrue => true
  | _ => false

/-- The record is counted as a non-current object: `IsLatest is False`. -/
def isNonCurrent (v : VersionRecord) : Bool :=
  match v.IsLatest with
  | .pyFalse => true
  | _ => false

/-- The `IsLatest` value is an actual boolean. -/
def isBoolLatest (v : VersionRecord) : Bool :=
  match v.IsLatest with
  | .pyTrue => true
  | .pyFalse => true
  | .malformed => false

def sizeSum (vs : List VersionRecord) : ℕ := (vs.map VersionRecord.Size).sum

theorem foldl_processDeleteMarker (dms : List DeleteMarkerRecord) :
    ∀ t : Totals, dms.foldl processDeleteMarker t
      = { t with delete_marker_count := t.delete_marker_count + dms.length } := by
  induction dms with
  | nil => intro t; cases t; simp
  | cons d ds ih =>
    intro t
    rw [List.foldl_cons, ih]
    cases t
    simp [processDeleteMarker, List.length_cons]; omega

theorem foldl_processVersion (vs : List VersionRecord) :
    ∀ t : Totals, vs.foldl processVersion t = { t with
      versioned_object_count := t.versioned_object_count + vs.countP isNonCurrent,
      versioned_object_size := t.versioned_object_size + sizeSum (vs.filter isNonCurrent),
      current_object_count := t.current_object_count + vs.countP isCurrent,
      current_object_size := t.current_object_size + sizeSum (vs.filter isCurrent) } := by
  induction vs with
  | nil => intro t; cases t; simp [sizeSum]
  | cons v vs ih =>
    intro t
    rw [List.foldl_cons, ih]
    cases t
    rcases v with ⟨lat, sz⟩
    cases lat <;>
      simp [processVersion, isCurrent, isNonCurrent, sizeSum, List.countP_cons,
        List.filter_cons] <;>
      omega

theorem processPage_eq (t : Totals) (p : ListingPage) :
    processPage t p = { t with
      delete_marker_count := t.delete_marker_count + (pageDeleteMarkers p).length,
      versioned_object_count := t.versioned_object_count + (pageVersions p).countP isNonCurrent,
      versioned_object_size := t.versioned_object_size + sizeSum ((pageVersions p).filter isNonCurrent),
      current_object_count := t.current_object_count + (pageVersions p).countP isCurrent,
      current_object_size := t.current_object_size + sizeSum ((pageVersions p).filter isCurrent) } := by
  rcases p with ⟨dms, vs⟩
  cases t
  cases dms <;> cases vs <;>
    simp [processPage, pageDeleteMarkers, pageVersions, foldl_processDeleteMarker,
      foldl_processVersion, sizeSum]

theorem foldl_processPage (pages : List ListingPage) :
    ∀ t : Totals, pages.foldl processPage t = { t with
      delete_marker_count := t.delete_marker_count + (allDeleteMarkers pages).length,
      versioned_object_count := t.versioned_object_count + (allVersions pages).countP isNonCurrent,
      versioned_object_size := t.versioned_object_size + sizeSum ((allVersions pages).filter isNonCurrent),
      current_object_count := t.current_object_count + (allVersions pages).countP isCurrent,
      current_object_size := t.current_object_size + sizeSum ((allVersions pages).filter isCurrent) } := by
  induction pages with
  | nil => intro t; cases t; simp [allDeleteMarkers, allVersions, sizeSum]
  | cons p ps ih =>
    intro t
    rw [List.foldl_cons, processPage_eq, ih]
    cases t
    simp [allDeleteMarkers, allVersions, List.map_cons, List.flatten_cons,
      List.length_append, List.countP_append, List.filter_append, sizeSum,
      List.map_append, List.sum_append]; omega

/-- Closed form of the aggregation: the six totals are plain counts and
sums over the flattened record sequence. -/
theorem aggregate_spec (pages : List ListingPage) :
    aggregate pages = ⟨(allDeleteMarkers pages).length, 0,
      (allVersions pages).countP isNonCurrent, sizeSum ((allVersions pages).filter isNonCurrent),
      (allVersions pages).countP isCurrent, sizeSum ((allVersions pages).filter isCurrent)⟩ := by
  rw [aggregate, foldl_processPage]
  simp [initialTotals]

theorem countP_current_add_nonCurrent (l : List VersionRecord) :
    l.countP isCurrent + l.countP isNonCurrent = l.countP isBoolLatest := by
  induction l with
  | nil => simp
  | cons v vs ih =>
    rcases v with ⟨lat, sz⟩
    cases lat <;>
      simp [List.countP_cons, isCurrent, isNonCurrent, isBoolLatest] <;>
      omega

/-- Restriction of a page to the version records whose `IsLatest` is an
actual boolean. -/
def dropMalformed (p : ListingPage) : ListingPage :=
  { p with Versions := p.Versions.map (fun vs => vs.filter isBoolLatest) }

theorem pageDeleteMarkers_dropMalformed (p : ListingPage) :
    pageDeleteMarkers (dropMalformed p) = pageDeleteMarkers p := rfl

theorem pageVersions_dropMalformed (p : ListingPage) :
    pageVersions (dropMalformed p) = (pageVersions p).filter isBoolLatest := by
  rcases p with ⟨dms, vs⟩
  cases vs <;> simp [pageVersions, dropMalformed]

theorem allDeleteMarkers_dropMalformed (pages : List ListingPage) :
    allDeleteMarkers (pages.map dropMalformed) = allDeleteMarkers pages := by
  have hfun : pageDeleteMarkers ∘ dropMalformed = pageDeleteMarkers := funext fun p => rfl
  unfold allDeleteMarkers
  rw [List.map_map, hfun]

theorem allVersions_dropMalformed (pages : List ListingPage) :
    allVersions (pages.map dropMalformed) = (allVersions pages).filter isBoolLatest := by
  have hfun : pageVersions ∘ dropMalformed
      = fun p => (pageVersions p).filter isBoolLatest :=
    funext fun p => pageVersions_dropMalformed p
  unfold allVersions
  rw [List.map_map, hfun]
  induction pages with
  | nil => rfl
  | cons p ps ih => simp only [List.map_cons, List.flatten_cons, List.filter_append, ih]

theorem filter_bool_isCurrent (l : List VersionRecord) :
    (l.filter isBoolLatest).filter isCurrent = l.filter isCurrent := by
  induction l with
  | nil => rfl
  | cons v vs ih =>
    rcases v with ⟨lat, sz⟩
    cases lat <;> simp [List.filter_cons, isCurrent, isBoolLatest, ih]

theorem filter_bool_isNonCurrent (l : List VersionRecord) :
    (l.filter isBoolLatest).filter isNonCurrent = l.filter isNonCurrent := by
  induction l with
  | nil => rfl
  | cons v vs ih =>
    rcases v with ⟨lat, sz⟩
    cases lat <;> simp [List.filter_cons, isNonCurrent, isBoolLatest, ih]

/-- C8: aggregating an empty page sequence (no pages at all) yields all six
running totals equal to zero. -/
theorem aggregate_nil_all_zero : aggregate [] = ⟨0, 0, 0, 0, 0, 0⟩ := rfl

/-- C9: a version record whose `IsLatest` is neither `True` nor `False` is
silently skipped: the aggregation still completes (the model is a total
function), the record contributes to no counter or size total, and the
result equals the aggregation of the pages restricted to boolean-flagged
records. -/
theorem aggregate_eq_aggregate_dropMalformed (pages : List ListingPage) :
    aggregate pages = aggregate (pages.map dropMalformed) := by
  rw [aggregate_spec, aggregate_spec, allDeleteMarkers_dropMalformed, allVersions_dropMalformed]
  simp only [Totals.mk.injEq, List.countP_eq_length_filter, filter_bool_isCurrent,
    filter_bool_isNonCurrent]

/-- A one-page listing holding a delete marker, a current version of size
10, a version record whose `IsLatest` is not a boolean, and a non-current
version of size 5. -/
def malformedPage : ListingPage :=
  ⟨some [DeleteMarkerRecord.mk], some [⟨.pyTrue, 10⟩, ⟨.malformed, 999⟩, ⟨.pyFalse, 5⟩]⟩

/-- The same page with the malformed version record removed. -/
def malformedPageDropped : ListingPage :=
  ⟨some [DeleteMarkerRecord.mk], some [⟨.pyTrue, 10⟩, ⟨.pyFalse, 5⟩]⟩

/-- C2 (counterexample): a page containing a version record with a
non-boolean `IsLatest` does not make the aggregation fail — the loop
returns ordinary totals in which the record was silently dropped, equal to
the totals of the same page without the malformed record. -/
theorem malformed_record_not_fatal :
    aggregate [malformedPage] = ⟨1, 0, 1, 5, 1, 10⟩ ∧
      aggregate [malformedPage] = aggregate [malformedPageDropped] :=
  ⟨rfl, rfl⟩

/-- C2 (amended): the loop body of lines 188-194 has no branch for a
non-boolean `IsLatest`, so such a record is silently skipped — it leaves
the running totals unchanged and the aggregation completes normally. -/
theorem processVersion_malformed (t : Totals) (v : VersionRecord)
    (h : v.IsLatest = .malformed) : processVersion t v = t := by
  rw [processVersion, h]

theorem processVersion_malformed_witness :
    (⟨.malformed, 42⟩ : VersionRecord).IsLatest = .malformed ∧
      processVersion ⟨1, 2, 3, 4, 5, 6⟩ ⟨.malformed, 42⟩ = ⟨1, 2, 3, 4, 5, 6⟩ :=
  ⟨rfl, processVersion_malformed ⟨1, 2, 3, 4, 5, 6⟩ ⟨.malformed, 42⟩ rfl⟩

/-- A one-page listing whose only record is a version with a non-boolean
`IsLatest`. -/
def malformedOnlyPage : ListingPage := ⟨none, some [⟨.malformed, 7⟩]⟩

/-- C6 (counterexample): with one malformed version record in the listing,
the current count plus the non-current count is 0 while the number of
version records observed is 1. -/
theorem count_invariant_fails_on_malformed :
    (aggregate [malformedOnlyPage]).current_object_count
        + (aggregate [malformedOnlyPage]).versioned_object_count = 0 ∧
      (allVersions [malformedOnlyPage]).length = 1 :=
  ⟨rfl, rfl⟩

/-- C6 (amended): after aggregating any finite page sequence, the current
count plus the non-current count equals the number of version records
whose `IsLatest` is an actual boolean (malformed records are silently
skipped and not counted), and the delete-marker count equals the number of
delete-marker records observed. -/
theorem count_invariant (pages : List ListingPage) :
    (aggregate pages).current_object_count + (aggregate pages).versioned_object_count
        = (allVersions pages).countP isBoolLatest ∧
      (aggregate pages).delete_marker_count = (allDeleteMarkers pages).length := by
  rw [aggregate_spec]
  exact ⟨countP_current_add_nonCurrent _, rfl⟩

/-- C4: two page sequences carrying the same multiset of delete-marker
records and the same multiset of version records — however the records are
ordered or split across page boundaries — aggregate to identical values of
all six running totals. -/
theorem aggregate_multiset_invariant (pages₁ pages₂ : List ListingPage)
    (hdm : (↑(allDeleteMarkers pages₁) : Multiset DeleteMarkerRecord) = ↑(allDeleteMarkers pages₂))
    (hv : (↑(allVersions pages₁) : Multiset VersionRecord) = ↑(allVersions pages₂)) :
    aggregate pages₁ = aggregate pages₂ := by
  have pdm : (allDeleteMarkers pages₁).Perm (allDeleteMarkers pages₂) := Multiset.coe_eq_coe.mp hdm
  have pv : (allVersions pages₁).Perm (allVersions pages₂) := Multiset.coe_eq_coe.mp hv
  rw [aggregate_spec, aggregate_spec]
  simp only [Totals.mk.injEq]
  refine ⟨pdm.length_eq, trivial, pv.countP_eq _, ?_, pv.countP_eq _, ?_⟩
  · exact List.Perm.sum_eq (List.Perm.map VersionRecord.Size (pv.filter isNonCurrent))
  · exact List.Perm.sum_eq (List.Perm.map VersionRecord.Size (pv.filter isCurrent))

/-- A single page carrying one delete marker and two versions. -/
def paginationA : List ListingPage :=
  [⟨some [DeleteMarkerRecord.mk], some [⟨.pyTrue, 7⟩, ⟨.pyFalse, 3⟩]⟩]

/-- The same records as `paginationA`, reordered and split across two
pages. -/
def paginationB : List ListingPage :=
  [⟨none, some [⟨.pyFalse, 3⟩]⟩, ⟨some [DeleteMarkerRecord.mk], some [⟨.pyTrue, 7⟩]⟩]

theorem aggregate_multiset_invariant_witness :
    ((↑(allDeleteMarkers paginationA) : Multiset DeleteMarkerRecord)
        = ↑(allDeleteMarkers paginationB)) ∧
      ((↑(allVersions paginationA) : Multiset VersionRecord) = ↑(allVersions paginationB)) ∧
      aggregate paginationA = aggregate paginationB :=
  ⟨by decide, by decide,
    aggregate_multiset_invariant paginationA paginationB (by decide) (by decide)⟩

/-- The multiset of version records named by the worked example of the
spec: two current versions of sizes 100 and 200, five non-current versions
of size 50 each. -/
def exampleVersions : List VersionRecord :=
  [⟨.pyTrue, 100⟩, ⟨.pyTrue, 200⟩, ⟨.pyFalse, 50⟩, ⟨.pyFalse, 50⟩, ⟨.pyFalse, 50⟩,
    ⟨.pyFalse, 50⟩, ⟨.pyFalse, 50⟩]

/-- C7: any pagination containing exactly 3 delete markers, current
versions of sizes 100 and 200, and five non-current versions of size 50,
aggregates to `deleteMarkerCount = 3`, `currentCount = 2`,
`currentSize = 300`, `nonCurrentCount = 5`, `nonCurrentSize = 250`, with
combined current-plus-non-current size 550. -/
theorem aggregate_example_totals (pages : List ListingPage)
    (hv : (↑(allVersions pages) : Multiset VersionRecord) = ↑exampleVersions)
    (hdm : (allDeleteMarkers pages).length = 3) :
    aggregate pages = ⟨3, 0, 5, 250, 2, 300⟩ ∧
      (aggregate pages).current_object_size + (aggregate pages).versioned_object_size = 550 := by
  have pv := Multiset.coe_eq_coe.mp hv
  have hagg : aggregate pages = ⟨3, 0, 5, 250, 2, 300⟩ := by
    rw [aggregate_spec]
    simp only [Totals.mk.injEq]
    refine ⟨hdm, trivial, ?_, ?_, ?_, ?_⟩
    · rw [pv.countP_eq]
      decide
    · show sizeSum _ = 250
      unfold sizeSum
      rw [List.Perm.sum_eq (List.Perm.map VersionRecord.Size (pv.filter isNonCurrent))]
      decide
    · rw [pv.countP_eq]
      decide
    · show sizeSum _ = 300
      unfold sizeSum
      rw [List.Perm.sum_eq (List.Perm.map VersionRecord.Size (pv.filter isCurrent))]
      decide
  exact ⟨hagg, by rw [hagg]; decide⟩

/-- One concrete two-page pagination of the worked example's records. -/
def examplePages : List ListingPage :=
  [⟨some [DeleteMarkerRecord.mk, DeleteMarkerRecord.mk],
      some [⟨.pyTrue, 100⟩, ⟨.pyFalse, 50⟩, ⟨.pyFalse, 50⟩]⟩,
    ⟨some [DeleteMarkerRecord.mk],
      some [⟨.pyTrue, 200⟩, ⟨.pyFalse, 50⟩, ⟨.pyFalse, 50⟩, ⟨.pyFalse, 50⟩]⟩]

theorem aggregate_example_totals_witness :
    ((↑(allVersions examplePages) : Multiset VersionRecord) = ↑exampleVersions) ∧
      (allDeleteMarkers examplePages).length = 3 ∧
      (aggregate examplePages = ⟨3, 0, 5, 250, 2, 300⟩ ∧
        (aggregate examplePages).current_object_size
          + (aggregate examplePages).versioned_object_size = 550) :=
  ⟨by decide, by decide, aggregate_example_totals examplePages (by decide) (by decide)⟩

theorem rne_natCast (n : ℕ) : rne ((n : ℚ)) = n := by
  have h := rne_intCast (n : ℤ)
  rwa [Int.cast_natCast] at h

theorem str_round2_float_one : str_round2 (.float 1) = "1.0" := by
  have h : rne ((1 : ℚ) * 100) = ((100 : ℕ) : ℤ) := by
    have h1 : ((1 : ℚ) * 100) = ((100 : ℕ) : ℚ) := by norm_num
    rw [h1, rne_natCast]
  simp only [str_round2, h]
  norm_num
  rfl

theorem calculate_size_1023 : calculate_size 1023 = some "1023 Bs" := by
  have h := sizeLoop_int_small 1023 (by norm_num)
  simp only [calculate_size, h]
  rfl

theorem calculate_size_1024 : calculate_size 1024 = some "1.0 KBs" := by
  have h := sizeLoop_int_exact 1024 (by norm_num) (by norm_num)
  have hlog : Nat.log 1024 1024 = 1 := by
    have h1 := Nat.log_pow (by norm_num : 1 < 1024) 1
    simpa using h1
  rw [hlog] at h
  have hv : ((1024 : ℕ) : ℚ) / 2 ^ (10 * 1) = 1 := by norm_num
  rw [hv] at h
  simp only [calculate_size, h, str_round2_float_one]
  rfl

theorem calculate_size_1048576 : calculate_size (1024 * 1024) = some "1.0 MBs" := by
  have h := sizeLoop_int_exact (1024 * 1024) (by norm_num) (by norm_num)
  have hlog : Nat.log 1024 (1024 * 1024) = 2 := by
    have h1 := Nat.log_pow (by norm_num : 1 < 1024) 2
    have h2 : (1024 : ℕ) ^ 2 = 1024 * 1024 := by norm_num
    rwa [h2] at h1
  rw [hlog] at h
  have hv : ((1024 * 1024 : ℕ) : ℚ) / 2 ^ (10 * 2) = 1 := by norm_num
  rw [hv] at h
  simp only [calculate_size, h, str_round2_float_one]
  rfl

/-- C3 (amended): `calculate_size(1023)` returns `"1023 Bs"` — the input
stays a Python `int`, `round(1023, 2)` is an `int`, and `str` of an `int`
prints no decimal point — while `calculate_size(1024)` returns `"1.0 KBs"`
and `calculate_size(1024 * 1024)` returns `"1.0 MBs"` as the spec says. -/
theorem calculate_size_examples :
    calculate_size 1023 = some "1023 Bs" ∧ calculate_size 1024 = some "1.0 KBs" ∧
      calculate_size (1024 * 1024) = some "1.0 MBs" :=
  ⟨calculate_size_1023, calculate_size_1024, calculate_size_1048576⟩

/-- C3 (counterexample): `calculate_size(1023)` is not the string
`"1023.0 Bs"` claimed by the spec; values below 1024 never go through
float division, so they are rendered without the trailing `.0`. -/
theorem calculate_size_1023_no_decimal : calculate_size 1023 ≠ some "1023.0 Bs" := by
  rw [calculate_size_1023]
  decide

/-- C1 (amended): for every byte count `n` below 2^53 (the range in which
the int-to-float conversion of the first division is exact), the loop
count — hence the unit index used for the `size_table` lookup — equals
`⌊log₁₀₂₄ n⌋` (which is 0 for `n = 0`), and the unit symbol appended to
the output is `size_table[⌊log₁₀₂₄ n⌋]`.  Beyond 2^53 the claim fails:
binary64 rounding of the first division can push the value up to the next
power of 1024 (see the counterexample). -/
theorem calculate_size_unit_index (n : ℕ) (h : n < 2 ^ 53) :
    (sizeLoop (.int n) 0).2 = Nat.log 1024 n ∧
      calculate_size n = (size_table (Nat.log 1024 n)).map
        (fun unit => str_round2 (sizeLoop (.int n) 0).1 ++ " " ++ unit) := by
  have hcount : (sizeLoop (.int n) 0).2 = Nat.log 1024 n := by
    by_cases h1024 : 1024 ≤ n
    · rw [sizeLoop_int_exact n h h1024]
    · rw [sizeLoop_int_small n (by omega)]
      exact (Nat.log_of_lt (by omega)).symm
  refine ⟨hcount, ?_⟩
  simp only [calculate_size]
  rw [hcount]

theorem calculate_size_unit_index_witness :
    5 * 2 ^ 20 < 2 ^ 53 ∧
      ((sizeLoop (.int (5 * 2 ^ 20)) 0).2 = Nat.log 1024 (5 * 2 ^ 20) ∧
        calculate_size (5 * 2 ^ 20) = (size_table (Nat.log 1024 (5 * 2 ^ 20))).map
          (fun unit => str_round2 (sizeLoop (.int (5 * 2 ^ 20)) 0).1 ++ " " ++ unit)) :=
  ⟨by norm_num, calculate_size_unit_index (5 * 2 ^ 20) (by norm_num)⟩

/-- C1 (counterexample): at `n = 1024^6 - 1 = 2^60 - 1` the exact quotient
`n / 1024` lies within half an ulp of `2^50`, so the first float division
rounds it up to `2^50`; the loop then performs six divisions in total.
The unit index used is 6 (`EBs`) whereas `⌊log₁₀₂₄ n⌋ = 5` (`PBs`):
`calculate_size` does not select `size_table[⌊log₁₀₂₄ n⌋]` for this
input. -/
theorem calculate_size_unit_index_counterexample :
    (sizeLoop (.int (2 ^ 60 - 1)) 0).2 = 6 ∧ Nat.log 1024 (2 ^ 60 - 1) = 5 := by
  constructor
  · have hg : pyGuard (.int (2 ^ 60 - 1)) = true := (pyGuard_int _).mpr (by norm_num)
    rw [sizeLoop_step _ _ hg]
    show (sizeLoop (.float (rnd (((2 ^ 60 - 1 : ℕ) : ℚ) / 1024))) 1).2 = 6
    have hcast : ((2 ^ 60 - 1 : ℕ) : ℚ) = 2 ^ 60 - 1 := by push_cast; norm_num
    rw [hcast]
    have hrnd : rnd ((2 ^ 60 - 1 : ℚ) / 1024) = 2 ^ 50 := by
      have h1 : (1 : ℚ) ≤ (2 ^ 60 - 1 : ℚ) / 1024 := by
        rw [le_div_iff₀ (by norm_num)]
        norm_num
      unfold rnd
      rw [if_pos h1]
      have hfloor : ⌊(2 ^ 60 - 1 : ℚ) / 1024⌋ = 2 ^ 50 - 1 := by
        apply Int.floor_eq_iff.mpr
        constructor
        · rw [le_div_iff₀ (by norm_num)]
          push_cast
          norm_num
        · rw [div_lt_iff₀ (by norm_num)]
          push_cast
          norm_num
      rw [hfloor]
      have htoNat : ((2 : ℤ) ^ 50 - 1).toNat = 2 ^ 50 - 1 := rfl
      rw [htoNat]
      have hlog2 : Nat.log 2 (2 ^ 50 - 1) = 49 :=
        Nat.log_eq_of_pow_le_of_lt_pow (by norm_num) (by norm_num)
      rw [hlog2]
      have harg : (2 ^ 60 - 1 : ℚ) / 1024 * 2 ^ 52 / 2 ^ 49 = (2 ^ 60 - 1 : ℚ) / 128 := by
        norm_num
      rw [harg]
      have hrne : rne ((2 ^ 60 - 1 : ℚ) / 128) = 2 ^ 53 := by
        unfold rne
        have hf : ⌊(2 ^ 60 - 1 : ℚ) / 128⌋ = 2 ^ 53 - 1 := by
          apply Int.floor_eq_iff.mpr
          constructor
          · rw [le_div_iff₀ (by norm_num)]
            push_cast
            norm_num
          · rw [div_lt_iff₀ (by norm_num)]
            push_cast
            norm_num
        rw [hf]
        rw [if_neg (by push_cast; norm_num), if_pos (by push_cast; norm_num)]
        norm_num
      rw [hrne]
      push_cast
      norm_num
    rw [hrnd]
    have h2 : (2 : ℚ) ^ 50 = ((1 : ℕ) : ℚ) * 2 ^ 50 / 2 ^ 0 := by norm_num
    rw [h2, sizeLoop_exact 1 (by norm_num) (2 ^ 50) 50 0 1 (by norm_num) (by norm_num)]
    have hlog : Nat.log 1024 (2 ^ 50) = 5 := by
      rw [show (2 : ℕ) ^ 50 = 1024 ^ 5 by norm_num]
      exact Nat.log_pow (by norm_num) 5
    rw [hlog]
  · exact Nat.log_eq_of_pow_le_of_lt_pow (by norm_num) (by norm_num)

/-- From a float state at least `2^(10 k)`, the loop performs at least `k`
more iterations: each division by 1024 of a value at least `2^(10 (t+1))`
yields (after rounding) a value at least `2^(10 t)`. -/
theorem sizeLoop_count_pow (k : ℕ) :
    ∀ (q : ℚ) (c : ℕ), (2 : ℚ) ^ (10 * k) ≤ q → c + k ≤ (sizeLoop (.float q) c).2 := by
  induction k with
  | zero =>
    intro q c _
    have h := sizeLoop_count_le (.float q) c
    omega
  | succ k ih =>
    intro q c h
    have hq1024 : (1024 : ℚ) ≤ q := by
      calc (1024 : ℚ) = 2 ^ 10 := by norm_num
      _ ≤ 2 ^ (10 * (k + 1)) := pow_le_pow_right₀ (by norm_num) (by omega)
      _ ≤ q := h
    have hg : pyGuard (.float q) = true := (pyGuard_float q).mpr hq1024
    rw [sizeLoop_step _ _ hg]
    show c + (k + 1) ≤ (sizeLoop (.float (rnd (q / 1024))) (c + 1)).2
    have hnext : (2 : ℚ) ^ (10 * k) ≤ rnd (q / 1024) := by
      apply le_rnd_pow
      rw [le_div_iff₀ (by norm_num)]
      calc (2 : ℚ) ^ (10 * k) * 1024 = 2 ^ (10 * k) * 2 ^ 10 := by norm_num
      _ = 2 ^ (10 * (k + 1)) := by rw [← pow_add]; ring_nf
      _ ≤ q := h
    have h2 := ih (rnd (q / 1024)) (c + 1) hnext
    omega

/-- C5 (amended): for every byte count of at least `1024^7` the scale
exceeds the highest key of `size_table`; the loop count reaches at least
7, so the lookup `_size_table[count]` raises an uncaught `KeyError`
(modelled by `none`) — the source neither extends the table nor clamps.
(For astronomically large inputs beyond the binary64 range, about
`2^1034`, real Python would raise OverflowError at the first division
instead — still an uncaught error; that regime is outside the float
model.) -/
theorem calculate_size_overflow (n : ℕ) (h : 1024 ^ 7 ≤ n) : calculate_size n = none := by
  have h70 : 2 ^ 70 ≤ n := by
    have he : (1024 : ℕ) ^ 7 = 2 ^ 70 := by norm_num
    omega
  have hg : pyGuard (.int n) = true := (pyGuard_int n).mpr (by
    have hb : (1024 : ℕ) ≤ 2 ^ 70 := by norm_num
    omega)
  have hcount : 7 ≤ (sizeLoop (.int n) 0).2 := by
    rw [sizeLoop_step _ _ hg]
    show 7 ≤ (sizeLoop (.float (rnd ((n : ℚ) / 1024))) 1).2
    have hf0 : (2 : ℚ) ^ (10 * 6) ≤ rnd ((n : ℚ) / 1024) := by
      apply le_rnd_pow
      rw [le_div_iff₀ (by norm_num)]
      have hcast : ((2 ^ 70 : ℕ) : ℚ) ≤ (n : ℚ) := by exact_mod_cast h70
      push_cast at hcast
      calc (2 : ℚ) ^ (10 * 6) * 1024 = 2 ^ 70 := by norm_num
      _ ≤ (n : ℚ) := hcast
    have hc := sizeLoop_count_pow 6 (rnd ((n : ℚ) / 1024)) 1 hf0
    omega
  simp only [calculate_size]
  rw [size_table_none _ hcount]
  rfl

/-- C5 (counterexample): the concrete byte count `1024^7` (one unit above
the exabyte scale) makes `calculate_size` raise `KeyError`: the unit table
has no key 7 and no clamp or fallback is applied. -/
theorem calculate_size_overflow_counterexample : calculate_size (1024 ^ 7) = none := by
  have hg : pyGuard (.int (1024 ^ 7)) = true := (pyGuard_int _).mpr (by norm_num)
  have hcount : 7 ≤ (sizeLoop (.int (1024 ^ 7)) 0).2 := by
    rw [sizeLoop_step _ _ hg]
    show 7 ≤ (sizeLoop (.float (rnd (((1024 ^ 7 : ℕ) : ℚ) / 1024))) 1).2
    have hf0 : (2 : ℚ) ^ (10 * 6) ≤ rnd (((1024 ^ 7 : ℕ) : ℚ) / 1024) := by
      apply le_rnd_pow
      rw [le_div_iff₀ (by norm_num)]
      push_cast
      norm_num
    have hc := sizeLoop_count_pow 6 _ 1 hf0
    omega
  simp only [calculate_size]
  rw [size_table_none _ hcount]
  rfl

theorem calculate_size_overflow_witness :
    1024 ^ 7 ≤ 2 * 1024 ^ 7 ∧ calculate_size (2 * 1024 ^ 7) = none :=
  ⟨by norm_num, calculate_size_overflow (2 * 1024 ^ 7) (by norm_num)⟩

/-- C10: the loop of `calculate_size` terminates on every non-negative
integer input: some finite fuel always makes the fuel-bounded loop return
(with the same result as the recursive loop), because every iteration
strictly decreases the integer part of the running value. -/
theorem calculate_size_loop_terminates (n : ℕ) :
    ∃ fuel, sizeLoopFuel fuel (.int n) 0 = some (sizeLoop (.int n) 0) :=
  sizeLoopFuel_terminates (.int n) 0

end S3Script
